import Mathlib

/-!
Verification development for the kakao name tracker
(src/name_tracker_app.py).

The program is shallowly embedded: Python strings become `List Char`
(Python strings are sequences of Unicode code points, matching `Char`),
regular-expression matching is embedded by a small backtracking engine
(leftmost search, greedy quantifiers, ordered alternation — the
semantics of Python's re module on the patterns used here), and the
Streamlit main block becomes a fold over the uploaded files.

Approximations, stated once here:
* Python's \s and \w match some further Unicode characters beyond the
  sets modelled below (ASCII whitespace; ASCII alphanumerics, '_' and
  the Hangul syllable block 가-힣).  All inputs relevant to the claims
  stay inside the modelled sets, and the source patterns themselves only
  ever combine \w with the explicit class 가-힣.
* st.warning / st.error only display text; the error messages of the
  main block are modelled as a list of offending filenames.
-/

/-- ASCII whitespace, modelling the characters matched by \s and
stripped by str.strip for the inputs of this program. -/
def isSpacePy (c : Char) : Bool :=
  c = ' ' || c = '\t' || c = '\n' || c = '\r' || c = '\x0b' || c = '\x0c'

/-- Hangul syllables, the character class 가-힣 (U+AC00 to U+D7A3). -/
def isHangul (c : Char) : Bool :=
  0xAC00 ≤ c.toNat && c.toNat ≤ 0xD7A3

/-- A word character of the source's patterns: \w restricted to ASCII
letters, digits, underscore, plus the Hangul block (the source always
writes the class [\w가-힣...], so 가-힣 is included either way). -/
def isWordPy (c : Char) : Bool :=
  c.isAlpha || c.isDigit || c = '_' || isHangul c

/-- Numeric value of a digit character. -/
def digitVal (c : Char) : Nat := c.toNat - 48

/-- The digit character for n (meaningful for n ≤ 9). -/
def dc (n : Nat) : Char := Char.ofNat (48 + n)

/-- Two-digit zero-padded decimal form, as produced by a {:02} format
specifier for values below 100. -/
def pad2 (n : Nat) : List Char := [dc (n / 10), dc (n % 10)]

/-- Four-digit zero-padded decimal form (values below 10000). -/
def pad4 (n : Nat) : List Char :=
  [dc (n / 1000), dc (n / 100 % 10), dc (n / 10 % 10), dc (n % 10)]

/-- A calendar date as produced by datetime.date. -/
structure PDate where
  y : Nat
  m : Nat
  d : Nat
deriving DecidableEq, Repr

/-- Gregorian leap-year rule, as implemented by the datetime module. -/
def isLeap (y : Nat) : Bool :=
  y % 4 == 0 && (y % 100 != 0 || y % 400 == 0)

/-- Number of days of month m in year y (datetime's table). -/
def daysInMonth (y m : Nat) : Nat :=
  if m = 2 then (if isLeap y then 29 else 28)
  else if m = 4 ∨ m = 6 ∨ m = 9 ∨ m = 11 then 30
  else 31

/-- Validation performed by the datetime.date constructor: year in
MINYEAR..MAXYEAR, month 1..12, day 1..days of the month.  A failing
check raises ValueError, which the source catches and turns into None. -/
def mkDate (y m d : Nat) : Option PDate :=
  if 1 ≤ y ∧ y ≤ 9999 ∧ 1 ≤ m ∧ m ≤ 12 ∧ 1 ≤ d ∧ d ≤ daysInMonth y m then
    some ⟨y, m, d⟩
  else none

/-- Backtracking choice: the first alternative that succeeds wins. -/
def obt (a b : Option α) : Option α :=
  match a with
  | some r => some r
  | none => b

/-- The %d field of strptime compiles to the regex
3[01]|[12]\d|0[1-9]|[1-9]; nothing follows it in the format, so the
first alternative that matches locally is kept.  Returns the day value
and the unconsumed input. -/
def pickDay (s : List Char) : Option (Nat × List Char) :=
  obt (match s with
       | '3' :: c :: r => if c = '0' || c = '1' then some (30 + digitVal c, r) else none
       | _ => none)
  (obt (match s with
        | c1 :: c2 :: r =>
            if (c1 = '1' || c1 = '2') && c2.isDigit then
              some (10 * digitVal c1 + digitVal c2, r)
            else none
        | _ => none)
   (obt (match s with
         | '0' :: c :: r => if '1' ≤ c && c ≤ '9' then some (digitVal c, r) else none
         | _ => none)
    (match s with
     | c :: r => if '1' ≤ c && c ≤ '9' then some (digitVal c, r) else none
     | _ => none)))

/-- After the month: the literal '-' of the format, then %d.  strptime
then rejects unconsumed input ("unconverted data remains") and the
datetime.date constructor validates the values. -/
def afterM (y m : Nat) (s : List Char) : Option PDate :=
  match s with
  | c :: r =>
      if c = '-' then
        match pickDay r with
        | some (d, rest) => if rest = [] then mkDate y m d else none
        | none => none
      else none
  | [] => none

/-- The %m field compiles to 1[0-2]|0[1-9]|[1-9]; it is followed by
'-' and %d in the format, so a locally matching alternative is retried
when that continuation fails (regex backtracking).  On the inputs this
program feeds to strptime the retried alternatives can never succeed
after an earlier one matched, so chaining whole continuations with obt
coincides with Python's behaviour. -/
def monthCont (y : Nat) (s : List Char) : Option PDate :=
  obt (match s with
       | '1' :: c :: r =>
           if c = '0' || c = '1' || c = '2' then afterM y (10 + digitVal c) r else none
       | _ => none)
  (obt (match s with
        | '0' :: c :: r => if '1' ≤ c && c ≤ '9' then afterM y (digitVal c) r else none
        | _ => none)
   (match s with
    | c :: r => if '1' ≤ c && c ≤ '9' then afterM y (digitVal c) r else none
    | _ => none))

/-- datetime.strptime(s, "%Y-%m-%d").date(): %Y is exactly four
digits, then the literal '-', then %m, '-', %d as above.  Any failure
(no match, unconsumed input, invalid date) raises ValueError, which the
caller's bare except turns into None. -/
def strptimeYMD (s : List Char) : Option PDate :=
  match s with
  | c1 :: c2 :: c3 :: c4 :: c5 :: r =>
      if c5 = '-' && c1.isDigit && c2.isDigit && c3.isDigit && c4.isDigit then
        monthCont (digitVal c1 * 1000 + digitVal c2 * 100 + digitVal c3 * 10 + digitVal c4) r
      else none
  | _ => none

/-! ## A small backtracking regex engine

Python's re module, on the patterns of this program, performs a
leftmost search with a depth-first backtracking match: alternatives are
tried left to right, quantifiers are greedy (try the longer match
first).  Captured group spans are recorded by index. -/

/-- Regular expressions as used by the source's patterns. -/
inductive RE where
  | cls (p : Char → Bool)
  | eps
  | seq (a b : RE)
  | alt (a b : RE)
  | opt (a : RE)
  | star (a : RE)
  | group (idx : Nat) (a : RE)

/-- X+ is XX* in regex semantics. -/
def REplus (a : RE) : RE := .seq a (.star a)

/-- Captured spans, indexed by group number: (idx, start, stop). -/
abbrev Caps := List (Nat × Nat × Nat)

/-- Record the span of a group (last completed repetition wins, as in
Python; the groups of this program are not repeated). -/
def setCap (caps : Caps) (idx : Nat) (sp : Nat × Nat) : Caps :=
  match caps with
  | [] => [(idx, sp)]
  | (i, sp') :: r => if i = idx then (i, sp) :: r else (i, sp') :: setCap r idx sp

/-- Look up the span of a group. -/
def getCap (caps : Caps) (idx : Nat) : Option (Nat × Nat) :=
  match caps with
  | [] => none
  | (i, sp) :: r => if i = idx then some sp else getCap r idx

/-- One level of the matcher, structurally recursive on the regex; the
continuation k receives the position and captures after the current
expression.  starRec performs one more star unfolding at lower fuel.
The order of the obt alternatives realises Python's strategy:
alternation is left-first, opt and star try matching first (greedy). -/
def reMatchF (s : List Char)
    (starRec : RE → Nat → Caps → (Nat → Caps → Option (Nat × Caps)) → Option (Nat × Caps)) :
    RE → Nat → Caps → (Nat → Caps → Option (Nat × Caps)) → Option (Nat × Caps)
  | .cls p, i, caps, k =>
      match s[i]? with
      | some c => if p c then k (i + 1) caps else none
      | none => none
  | .eps, i, caps, k => k i caps
  | .seq a b, i, caps, k =>
      reMatchF s starRec a i caps (fun j cs => reMatchF s starRec b j cs k)
  | .alt a b, i, caps, k =>
      obt (reMatchF s starRec a i caps k) (reMatchF s starRec b i caps k)
  | .opt a, i, caps, k =>
      obt (reMatchF s starRec a i caps k) (k i caps)
  | .star a, i, caps, k =>
      obt (reMatchF s starRec a i caps (fun j cs => starRec (.star a) j cs k)) (k i caps)
  | .group idx a, i, caps, k =>
      reMatchF s starRec a i caps (fun j cs => k j (setCap cs idx (i, j)))

/-- The matcher: fuel bounds the number of star repetitions along one
backtracking path.  Every star body in the source's patterns consumes
at least one character, so fuel = length of the input + 1 is never
exhausted. -/
def reMatch (s : List Char) :
    Nat → RE → Nat → Caps → (Nat → Caps → Option (Nat × Caps)) → Option (Nat × Caps)
  | 0, _, _, _, _ => none
  | fuel + 1, r, i, caps, k => reMatchF s (reMatch s fuel) r i caps k

/-- Try a full match of r at position i; on success return the end
position and the captures. -/
def reMatchAt (r : RE) (s : List Char) (i : Nat) : Option (Nat × Caps) :=
  reMatch s (s.length + 1) r i [] (fun j cs => some (j, cs))

/-- re.search: try positions left to right, return the first success
as (start, stop, captures). -/
def reSearchGo (r : RE) (s : List Char) (i : Nat) : Nat → Option (Nat × Nat × Caps)
  | 0 => none
  | n + 1 =>
      match reMatchAt r s i with
      | some (j, cs) => some (i, j, cs)
      | none => reSearchGo r s (i + 1) n

/-- Leftmost search over the whole input. -/
def reSearch (r : RE) (s : List Char) : Option (Nat × Nat × Caps) :=
  reSearchGo r s 0 (s.length + 1)

/-- The substring of s delimited by a span. -/
def sliceL (s : List Char) (sp : Nat × Nat) : List Char :=
  (s.take sp.2).drop sp.1

/-! ## The source's regular expressions -/

/-- Character class shorthands for the patterns. -/
def digitC : RE := .cls Char.isDigit

def spaceC : RE := .cls isSpacePy

def spSlashC : RE := .cls (fun c => isSpacePy c || c = '/')

def sepC : RE := .cls (fun c => c = '.' || c = '-')

def wordSlashC : RE := .cls (fun c => isWordPy c || c = '/')

def d2RE : RE := .seq digitC digitC

def d4RE : RE := .seq d2RE d2RE

/-- \d{1,2}, greedily. -/
def d12RE : RE := .seq digitC (.opt digitC)

/-- The group alternative of the name pattern: \d+조|[가-힣]+조. -/
def groupTokRE : RE :=
  .alt (.seq (REplus digitC) (.cls (fun c => c = '조')))
       (.seq (REplus (.cls isHangul)) (.cls (fun c => c = '조')))

/-- The capture of the name pattern: [\w가-힣/_]+(?:[\s/][\w가-힣/_]+)*. -/
def capNameRE : RE :=
  .seq (REplus wordSlashC) (.star (.seq spSlashC (REplus wordSlashC)))

/-- pattern = \d+\)\s*(?:(?:\d+조|[가-힣]+조)[\s/]*)?([\w가-힣/_]+(?:[\s/][\w가-힣/_]+)*) -/
def nameRE : RE :=
  .seq (REplus digitC)
    (.seq (.cls (fun c => c = ')'))
      (.seq (.star spaceC)
        (.seq (.opt (.seq groupTokRE (.star spSlashC)))
          (.group 1 capNameRE))))

/-- The \d+\) precheck applied to each stripped line. -/
def numParenRE : RE := .seq (REplus digitC) (.cls (fun c => c = ')'))

/-- The date pattern (\d{4}[.-]?\d{2}[.-]?\d{2}|\d{1,2}월\s*\d{1,2}일|\d{4}). -/
def dateRE : RE :=
  .group 1
    (.alt (.seq d4RE (.seq (.opt sepC) (.seq d2RE (.seq (.opt sepC) d2RE))))
      (.alt (.seq d12RE
              (.seq (.cls (fun c => c = '월'))
                (.seq (.star spaceC) (.seq d12RE (.cls (fun c => c = '일'))))))
        d4RE))

/-- The inner pattern (\d{1,2})월\s*(\d{1,2})일 used on the raw date. -/
def wolRE : RE :=
  .seq (.group 1 d12RE)
    (.seq (.cls (fun c => c = '월'))
      (.seq (.star spaceC) (.seq (.group 2 d12RE) (.cls (fun c => c = '일')))))

/-! ## String helpers of the source -/

/-- str.strip(): remove leading and trailing whitespace. -/
def pyStrip (s : List Char) : List Char :=
  ((s.dropWhile isSpacePy).reverse.dropWhile isSpacePy).reverse

/-- re.split on a one-character class (and str.split("\n") for the
newline class): cut at every occurrence, keeping empty chunks. -/
def splitClass (p : Char → Bool) : List Char → List (List Char)
  | [] => [[]]
  | c :: r =>
      if p c then [] :: splitClass p r
      else
        match splitClass p r with
        | [] => [[c]]
        | chunk :: rest => (c :: chunk) :: rest

/-- re.sub(r"\s+", " ", s): collapse every maximal whitespace run into
a single space. -/
def collapseWs : List Char → List Char
  | [] => []
  | [c] => if isSpacePy c then [' '] else [c]
  | a :: b :: r =>
      if isSpacePy a && isSpacePy b then collapseWs (b :: r)
      else (if isSpacePy a then ' ' else a) :: collapseWs (b :: r)

/-- int() on a string of decimal digits. -/
def digitsToNat (s : List Char) : Nat :=
  s.foldl (fun n c => 10 * n + digitVal c) 0

/-! ## Name extraction (extract_names_from_text) -/

/-- pattern.search(line).group(1): the captured name span, if the
pattern matches anywhere in the line. -/
def patternGroup1 (s : List Char) : Option (List Char) :=
  match reSearch nameRE s with
  | some (_, _, caps) =>
      match getCap caps 1 with
      | some sp => some (sliceL s sp)
      | none => none
  | none => none

/-- One loop iteration of extract_names_from_text: strip the line,
skip it unless it contains a numbering marker \d+\), then search the
name pattern; a match contributes group(1) stripped and with
whitespace runs collapsed, a failed match only emits a warning. -/
def processLine (names : List (List Char)) (line : List Char) : List (List Char) :=
  let ol := pyStrip line
  if ol = [] then names
  else if (reSearch numParenRE ol).isSome then
    match patternGroup1 ol with
    | some cap => names ++ [collapseWs (pyStrip cap)]
    | none => names
  else names

/-- extract_names_from_text: fold over the lines of the file. -/
def extract_names_from_text (text : List Char) : List (List Char) :=
  (splitClass (fun c => c = '\n') text).foldl processLine []

/-! ## Date extraction (extract_date_from_filename) -/

/-- The raw date text: group(1) of the first match of the combined
date pattern in the filename. -/
def dateSearchRaw (filename : List Char) : Option (List Char) :=
  match reSearch dateRE filename with
  | some (_, _, caps) =>
      match getCap caps 1 with
      | some sp => some (sliceL filename sp)
      | none => none
  | none => none

/-- re.search((\d{1,2})월\s*(\d{1,2})일, raw) with int() applied to the
two groups. -/
def wolSearch (raw : List Char) : Option (Nat × Nat) :=
  match reSearch wolRE raw with
  | some (_, _, caps) =>
      match getCap caps 1, getCap caps 2 with
      | some sp1, some sp2 => some (digitsToNat (sliceL raw sp1), digitsToNat (sliceL raw sp2))
      | _, _ => none
  | none => none

/-- extract_date_from_filename: search the combined pattern; on a
월-form match reparse month and day and format "2024-MM-DD" (the two
groups have at most two digits, so {:02} pads to exactly two); on a
bare four-digit match interpret MMDD with year 2024; otherwise parse
the raw text with dots replaced by dashes.  All parse failures return
None via the bare except. -/
def extract_date_from_filename (filename : List Char) : Option PDate :=
  match dateSearchRaw filename with
  | none => none
  | some raw =>
      if raw.contains '월' then
        match wolSearch raw with
        | some (m, d) => strptimeYMD ('2' :: '0' :: '2' :: '4' :: '-' :: (pad2 m ++ '-' :: pad2 d))
        | none => none
      else if raw.length = 4 && raw.all Char.isDigit then
        strptimeYMD ('2' :: '0' :: '2' :: '4' :: '-' :: (raw.take 2 ++ '-' :: raw.drop 2))
      else
        strptimeYMD (raw.map (fun c => if c = '.' then '-' else c))

/-! ## Name normalization (normalize_name_to_core) -/

/-- Fullmatch of \d+조: one or more digits followed by 조. -/
def isGroupTok (p : List Char) : Bool :=
  !p.dropLast.isEmpty && p.dropLast.all Char.isDigit && p.getLast? == some '조'

/-- The blacklist of brand or decoration words. -/
def blacklist : List (List Char) :=
  ["하고랩스".data, "사부작사부작".data, "으랏차".data, "인스피레이션".data, "BGO".data]

/-- Fullmatch of [가-힣]{2,3}: a Korean-name candidate. -/
def isKoreanTok (p : List Char) : Bool :=
  p.all isHangul && (p.length = 2 || p.length = 3)

/-- Fullmatch of [가-힣a-zA-Z0-9_]{4,}: an ID-style candidate. -/
def isIdTok (p : List Char) : Bool :=
  p.all (fun c => isHangul c || c.isAlpha || c.isDigit || c = '_') && 4 ≤ p.length

/-- The non-empty tokens after re.split(r"[\s/]", name.strip()). -/
def tokensOf (name : List Char) : List (List Char) :=
  (splitClass (fun c => isSpacePy c || c = '/') (pyStrip name)).filter (fun p => !p.isEmpty)

/-- The tokens surviving the group-label and blacklist filter. -/
def keptTokens (name : List Char) : List (List Char) :=
  (tokensOf name).filter (fun p => !isGroupTok p && !(blacklist.contains p))

/-- The Korean-name candidates among the surviving tokens. -/
def koreanParts (name : List Char) : List (List Char) :=
  (keptTokens name).filter isKoreanTok

/-- The ID-style candidates among the surviving tokens. -/
def idParts (name : List Char) : List (List Char) :=
  (keptTokens name).filter isIdTok

/-- max(l, key=len) keeps the current element unless a strictly longer
one appears, so the first element of maximal length wins. -/
def pickMaxLen (k : List Char) (ks : List (List Char)) : List Char :=
  ks.foldl (fun acc p => if acc.length < p.length then p else acc) k

/-- Python string comparison: lexicographic by code point. -/
def lexLe : List Char → List Char → Bool
  | [], _ => true
  | _ :: _, [] => false
  | a :: as, b :: bs => if a = b then lexLe as bs else decide (a.toNat < b.toNat)

/-- A stable insertion into a sorted list (equal elements keep their
original relative order). -/
def insertSorted (le : α → α → Bool) (a : α) : List α → List α
  | [] => [a]
  | b :: r => if le b a && !le a b then b :: insertSorted le a r else a :: b :: r

/-- A stable sort, modelling Python's sorted(). -/
def sortL (le : α → α → Bool) : List α → List α
  | [] => []
  | a :: r => insertSorted le a (sortL le r)

/-- normalize_name_to_core: split into tokens, drop group labels and
blacklisted words, then the priority cascade: longest Korean 2-3
character token, else last ID-style token, else the remaining tokens
sorted and joined by spaces. -/
def normalize_name_to_core (name : List Char) : List Char :=
  match koreanParts name with
  | k :: ks => pickMaxLen k ks
  | [] =>
      match (idParts name).getLast? with
      | some t => t
      | none => List.intercalate [' '] (sortL lexLe (keptTokens name))

/-! ## The main block: aggregation and report -/

/-- An uploaded file: name and decoded text content. -/
structure PFile where
  name : List Char
  content : List Char

/-- The mutable state of the main loop: participation is the
defaultdict(dict) (an insertion-ordered association list, as Python
dicts are), all_dates the set of parsed dates, errors the filenames
reported via st.error. -/
structure AggState where
  participation : List (List Char × List (PDate × Char))
  all_dates : List PDate
  errors : List (List Char)
deriving DecidableEq

/-- d[k] = v on a Python dict: overwrite in place or append. -/
def setD (ds : List (PDate × Char)) (d : PDate) (c : Char) : List (PDate × Char) :=
  match ds with
  | [] => [(d, c)]
  | (d', c') :: r => if d' = d then (d', c) :: r else (d', c') :: setD r d c

/-- participation[n][date] = 'O' (defaultdict creates the inner dict). -/
def setName (ps : List (List Char × List (PDate × Char))) (n : List Char) (d : PDate) :
    List (List Char × List (PDate × Char)) :=
  match ps with
  | [] => [(n, [(d, 'O')])]
  | (n', ds) :: r => if n' = n then (n', setD ds d 'O') :: r else (n', ds) :: setName r n d

/-- Mark one canonical name as present on one date. -/
def markPresent (st : AggState) (n : List Char) (d : PDate) : AggState :=
  { st with participation := setName st.participation n d }

/-- all_dates.add(date): sets collapse duplicates. -/
def insertDate (l : List PDate) (d : PDate) : List PDate :=
  if d ∈ l then l else l ++ [d]

/-- One iteration of the file loop: an unparseable filename is
reported and skipped; otherwise the date is added and every extracted
raw name is normalized and marked. -/
def step (st : AggState) (f : PFile) : AggState :=
  match extract_date_from_filename f.name with
  | none => { st with errors := st.errors ++ [f.name] }
  | some date =>
      (extract_names_from_text f.content).foldl
        (fun s n => markPresent s (normalize_name_to_core n) date)
        { st with all_dates := insertDate st.all_dates date }

/-- The whole aggregation pass over the uploaded files. -/
def processFiles (files : List PFile) : AggState :=
  files.foldl step { participation := [], all_dates := [], errors := [] }

/-- Date ordering of Python date objects (lexicographic on y, m, d). -/
def dateLe (a b : PDate) : Bool :=
  decide (a.y < b.y ∨ (a.y = b.y ∧ (a.m < b.m ∨ (a.m = b.m ∧ a.d ≤ b.d))))

/-- Strict date ordering. -/
def dateLt (a b : PDate) : Bool :=
  decide (a.y < b.y ∨ (a.y = b.y ∧ (a.m < b.m ∨ (a.m = b.m ∧ a.d < b.d))))

/-- sorted(all_dates). -/
def sortedDates (st : AggState) : List PDate :=
  sortL dateLe st.all_dates

/-- str(date): the ISO form YYYY-MM-DD. -/
def dateStr (d : PDate) : List Char :=
  pad4 d.y ++ '-' :: pad2 d.m ++ '-' :: pad2 d.d

/-- One row of the report: the name, one 'O'/'X' cell per sorted
date, and the total count of 'O' values of the inner dict. -/
structure ReportRow where
  name : List Char
  cells : List Char
  total : Nat
deriving DecidableEq

/-- dict.get(d, 'X') on the inner dict. -/
def lookupD (ds : List (PDate × Char)) (d : PDate) : Option Char :=
  match ds with
  | [] => none
  | (d', c) :: r => if d' = d then some c else lookupD r d

/-- Row construction of the main block. -/
def buildRows (st : AggState) : List ReportRow :=
  st.participation.map (fun nd =>
    { name := nd.1
      cells := (sortedDates st).map (fun d => (lookupD nd.2 d).getD 'X')
      total := (nd.2.map Prod.snd).count 'O' })

/-- The column layout of the final dataframe:
['이름'] + [str(d) for d in sorted_dates] + ['총 횟수']. -/
def reportColumns (st : AggState) : List (List Char) :=
  "이름".data :: ((sortedDates st).map dateStr ++ ["총 횟수".data])

/-- Dictionary lookup on the participation association list. -/
def lookupName (ps : List (List Char × List (PDate × Char))) (n : List Char) :
    Option (List (PDate × Char)) :=
  match ps with
  | [] => none
  | (n', ds) :: r => if n' = n then some ds else lookupName r n

/-- The presence marker stored for a name and a date, if any:
participation[n][d] of the aggregation state. -/
def lookup2 (st : AggState) (n : List Char) (d : PDate) : Option Char :=
  match lookupName st.participation n with
  | some ds => lookupD ds d
  | none => none

/-- The invariant maintained by the aggregation loop: every stored
presence value is 'O', every date key under any name is one of the
collected dates, inner dict keys are distinct, and the date set has no
duplicates. -/
def StInv (st : AggState) : Prop :=
  (∀ n ds, (n, ds) ∈ st.participation →
      (∀ d c, (d, c) ∈ ds → c = 'O' ∧ d ∈ st.all_dates) ∧ (ds.map Prod.fst).Nodup)
    ∧ st.all_dates.Nodup

/-! ## Digit-character facts -/

theorem dc_isDigit {n : Nat} (h : n ≤ 9) : (dc n).isDigit = true := by
  interval_cases n <;> decide

theorem digitVal_dc {n : Nat} (h : n ≤ 9) : digitVal (dc n) = n := by
  interval_cases n <;> decide

theorem dc_ne_dash {n : Nat} (h : n ≤ 9) : dc n ≠ '-' := by
  interval_cases n <;> decide

theorem dc_ne_dot {n : Nat} (h : n ≤ 9) : dc n ≠ '.' := by
  interval_cases n <;> decide

theorem wol_beq_dc {n : Nat} (h : n ≤ 9) : ('월' == dc n) = false := by
  interval_cases n <;> decide

theorem obt_none_right (a : Option α) : obt a none = a := by
  cases a <;> rfl

/-! ## Behaviour of the strptime model on padded fields -/

theorem pickDay_pad {d : Nat} (r : List Char) (h1 : 1 ≤ d) (h2 : d ≤ 31) :
    pickDay (pad2 d ++ r) = some (d, r) := by
  interval_cases d <;> simp +decide [pad2, dc, pickDay, obt, digitVal]

theorem monthCont_pad {m : Nat} (y : Nat) (rest : List Char) (h1 : 1 ≤ m) (h2 : m ≤ 12) :
    monthCont y (pad2 m ++ '-' :: rest) = afterM y m ('-' :: rest) := by
  interval_cases m <;>
    simp +decide [pad2, dc, monthCont, obt, afterM, digitVal] <;>
    exact obt_none_right _

theorem daysInMonth_le31 (y m : Nat) : daysInMonth y m ≤ 31 := by
  unfold daysInMonth
  split
  · split <;> omega
  · split <;> omega

theorem strptimeYMD_cons (c1 c2 c3 c4 c5 : Char) (r : List Char) :
    strptimeYMD (c1 :: c2 :: c3 :: c4 :: c5 :: r) =
      if c5 = '-' && c1.isDigit && c2.isDigit && c3.isDigit && c4.isDigit then
        monthCont (digitVal c1 * 1000 + digitVal c2 * 100 + digitVal c3 * 10 + digitVal c4) r
      else none := rfl

theorem strptimeYMD_pads (y m d : Nat) (hy1 : 1 ≤ y) (hy2 : y ≤ 9999)
    (hm1 : 1 ≤ m) (hm2 : m ≤ 12) (hd1 : 1 ≤ d) (hd2 : d ≤ daysInMonth y m) :
    strptimeYMD (pad4 y ++ '-' :: (pad2 m ++ '-' :: pad2 d)) = some ⟨y, m, d⟩ := by
  have e1 : y / 1000 ≤ 9 := by omega
  have e2 : y / 100 % 10 ≤ 9 := by omega
  have e3 : y / 10 % 10 ≤ 9 := by omega
  have e4 : y % 10 ≤ 9 := by omega
  have hval : digitVal (dc (y / 1000)) * 1000 + digitVal (dc (y / 100 % 10)) * 100 +
      digitVal (dc (y / 10 % 10)) * 10 + digitVal (dc (y % 10)) = y := by
    rw [digitVal_dc e1, digitVal_dc e2, digitVal_dc e3, digitVal_dc e4]; omega
  simp only [pad4, List.cons_append, List.nil_append]
  rw [strptimeYMD_cons,
    if_pos (by simp [dc_isDigit e1, dc_isDigit e2, dc_isDigit e3, dc_isDigit e4]),
    hval, monthCont_pad y (pad2 d) hm1 hm2]
  have hd31 : d ≤ 31 := by have := daysInMonth_le31 y m; omega
  simp only [afterM, if_pos rfl]
  rw [show pad2 d = pad2 d ++ [] from (List.append_nil _).symm, pickDay_pad [] hd1 hd31]
  simp [mkDate, hy1, hy2, hm1, hm2, hd1, hd2]

/-! ## Padded fields contain no marker characters -/

theorem wol_ne_dc {n : Nat} (h : n ≤ 9) : '월' ≠ dc n := by
  interval_cases n <;> decide

theorem contains_wol_pad2 {n : Nat} (h : n ≤ 99) : (pad2 n).contains '월' = false := by
  simp only [pad2, List.contains_cons, List.contains_nil, Bool.or_false]
  simp [wol_ne_dc (show n / 10 ≤ 9 by omega), wol_ne_dc (show n % 10 ≤ 9 by omega)]

theorem contains_wol_pad4 {n : Nat} (h : n ≤ 9999) : (pad4 n).contains '월' = false := by
  simp only [pad4, List.contains_cons, List.contains_nil, Bool.or_false]
  simp [wol_ne_dc (show n / 1000 ≤ 9 by omega), wol_ne_dc (show n / 100 % 10 ≤ 9 by omega),
    wol_ne_dc (show n / 10 % 10 ≤ 9 by omega), wol_ne_dc (show n % 10 ≤ 9 by omega)]

theorem all_isDigit_pad2 {n : Nat} (h : n ≤ 99) : (pad2 n).all Char.isDigit = true := by
  simp [pad2, dc_isDigit (show n / 10 ≤ 9 by omega), dc_isDigit (show n % 10 ≤ 9 by omega)]

/-! ## Claim C3 -/

/-- C3 counterexample: on the input line "3) 1조 홍길동" the extraction
pattern itself already consumes the group label "1조" (its optional
non-capturing group), so the extracted RawName is "홍길동", not
"1조 홍길동" as the claim states. -/
theorem c3_raw_name_counterexample :
    extract_names_from_text ("3) 1조 홍길동".data) = ["홍길동".data] ∧
      ["홍길동".data] ≠ ["1조 홍길동".data] := by
  constructor
  · decide
  · decide

/-- C3 (amended): for the input line "3) 1조 홍길동",
extract_names_from_text yields exactly one RawName, equal to "홍길동"
(the pattern strips the "1조" group label), and normalize_name_to_core
applied to that RawName returns "홍길동". -/
theorem c3_example_line :
    extract_names_from_text ("3) 1조 홍길동".data) = ["홍길동".data] ∧
      normalize_name_to_core ("홍길동".data) = "홍길동".data := by
  constructor
  · decide
  · decide


/-- C7: for every filename whose first date-pattern match is a
"M월 D일" phrase (the matched raw text contains 월 and the inner
pattern reads month m and day d from it) or a bare four-digit MMDD
code, with m and d denoting a valid month and day,
extract_date_from_filename returns the date with year 2024 and that
month and day. -/
theorem c7_year_anchored_2024 :
    (∀ s raw m d, dateSearchRaw s = some raw → raw.contains '월' = true →
        wolSearch raw = some (m, d) →
        1 ≤ m → m ≤ 12 → 1 ≤ d → d ≤ daysInMonth 2024 m →
        extract_date_from_filename s = some ⟨2024, m, d⟩)
    ∧ (∀ s m d, dateSearchRaw s = some (pad2 m ++ pad2 d) →
        1 ≤ m → m ≤ 12 → 1 ≤ d → d ≤ daysInMonth 2024 m →
        extract_date_from_filename s = some ⟨2024, m, d⟩) := by
  constructor
  · intro s raw m d hsr hwol hws hm1 hm2 hd1 hd2
    unfold extract_date_from_filename
    rw [hsr]
    simp only [hwol, if_true, hws]
    have h := strptimeYMD_pads 2024 m d (by omega) (by omega) hm1 hm2 hd1 hd2
    rw [show pad4 2024 = ['2', '0', '2', '4'] from by decide] at h
    simpa using h
  · intro s m d hsr hm1 hm2 hd1 hd2
    have hd31 : d ≤ 31 := le_trans hd2 (daysInMonth_le31 2024 m)
    have em1 : m / 10 ≤ 9 := by omega
    have em2 : m % 10 ≤ 9 := by omega
    have ed1 : d / 10 ≤ 9 := by omega
    have ed2 : d % 10 ≤ 9 := by omega
    unfold extract_date_from_filename
    rw [hsr]
    simp only [pad2, List.cons_append, List.nil_append]
    have hcon : ([dc (m/10), dc (m%10), dc (d/10), dc (d%10)].contains '월') = false := by
      simp [List.contains_cons, wol_ne_dc em1, wol_ne_dc em2, wol_ne_dc ed1, wol_ne_dc ed2]
    have htake : List.take 2 [dc (m/10), dc (m%10), dc (d/10), dc (d%10)] = [dc (m/10), dc (m%10)] := rfl
    have hdrop : List.drop 2 [dc (m/10), dc (m%10), dc (d/10), dc (d%10)] = [dc (d/10), dc (d%10)] := rfl
    simp only [hcon, Bool.false_eq_true, if_false,
      List.length_cons, List.length_nil, List.all_cons, List.all_nil,
      dc_isDigit em1, dc_isDigit em2, dc_isDigit ed1, dc_isDigit ed2,
      Bool.and_true, Bool.true_and, htake, hdrop]
    have h := strptimeYMD_pads 2024 m d (by omega) (by omega) hm1 hm2 hd1 hd2
    rw [show pad4 2024 = ['2', '0', '2', '4'] from by decide] at h
    simp only [pad2, List.cons_append, List.nil_append] at h
    simpa using h

/-- Witness for c7_year_anchored_2024: the two example filenames of
the claim, "5월 9일 모임.txt" and "0509출석.txt", both parse to
2024-05-09. -/
theorem c7_year_anchored_2024_witness :
    dateSearchRaw ("5월 9일 모임.txt".data) = some ("5월 9일".data) ∧
    ("5월 9일".data).contains '월' = true ∧
    wolSearch ("5월 9일".data) = some (5, 9) ∧
    dateSearchRaw ("0509출석.txt".data) = some (pad2 5 ++ pad2 9) ∧
    extract_date_from_filename ("5월 9일 모임.txt".data) = some ⟨2024, 5, 9⟩ ∧
    extract_date_from_filename ("0509출석.txt".data) = some ⟨2024, 5, 9⟩ := by
  refine ⟨by decide, by decide, by decide, by decide, ?_, ?_⟩
  · exact c7_year_anchored_2024.1 ("5월 9일 모임.txt".data) ("5월 9일".data) 5 9
      (by decide) (by decide) (by decide) (by decide) (by decide) (by decide) (by decide)
  · exact c7_year_anchored_2024.2 ("0509출석.txt".data) 5 9
      (by decide) (by decide) (by decide) (by decide) (by decide)

/-- C2 counterexample: the filename "20240509.txt" contains the date
2024-05-09 written as YYYYMMDD, a valid calendar date, yet
extract_date_from_filename returns none rather than the literal date:
strptime("%Y-%m-%d") requires the dashes that the separator-free raw
text lacks, and the bare except turns the failure into None. -/
theorem c2_yyyymmdd_counterexample :
    extract_date_from_filename ("20240509.txt".data) = none ∧
      extract_date_from_filename ("20240509.txt".data) ≠ some ⟨2024, 5, 9⟩ := by
  constructor
  · decide
  · decide

/-- C2 (amended): for every filename whose first date-pattern match
is YYYY-MM-DD or YYYY.MM.DD (separators present) denoting a valid
calendar date, extract_date_from_filename returns the literal year,
month and day from the filename (the year is not anchored to 2024);
a first match written as YYYYMMDD without separators instead fails the
final parse, and the function returns none. -/
theorem c2_literal_year_amended :
    (∀ s y m d sep1 sep2,
        dateSearchRaw s = some (pad4 y ++ sep1 :: (pad2 m ++ sep2 :: pad2 d)) →
        (sep1 = '-' ∨ sep1 = '.') → (sep2 = '-' ∨ sep2 = '.') →
        1 ≤ y → y ≤ 9999 → 1 ≤ m → m ≤ 12 → 1 ≤ d → d ≤ daysInMonth y m →
        extract_date_from_filename s = some ⟨y, m, d⟩)
    ∧ (∀ s y m d, dateSearchRaw s = some (pad4 y ++ (pad2 m ++ pad2 d)) →
        y ≤ 9999 → m ≤ 99 → d ≤ 99 →
        extract_date_from_filename s = none) := by
  constructor
  · intro s y m d sep1 sep2 hsr hs1 hs2 hy1 hy2 hm1 hm2 hd1 hd2
    have hd31 : d ≤ 31 := le_trans hd2 (daysInMonth_le31 y m)
    have ey1 : y / 1000 ≤ 9 := by omega
    have ey2 : y / 100 % 10 ≤ 9 := by omega
    have ey3 : y / 10 % 10 ≤ 9 := by omega
    have ey4 : y % 10 ≤ 9 := by omega
    have em1 : m / 10 ≤ 9 := by omega
    have em2 : m % 10 ≤ 9 := by omega
    have ed1 : d / 10 ≤ 9 := by omega
    have ed2 : d % 10 ≤ 9 := by omega
    have hw1 : ¬ ('월' = sep1) := by rcases hs1 with h | h <;> subst h <;> decide
    have hw2 : ¬ ('월' = sep2) := by rcases hs2 with h | h <;> subst h <;> decide
    have hr1 : (if sep1 = '.' then '-' else sep1) = '-' := by
      rcases hs1 with h | h <;> subst h <;> decide
    have hr2 : (if sep2 = '.' then '-' else sep2) = '-' := by
      rcases hs2 with h | h <;> subst h <;> decide
    unfold extract_date_from_filename
    rw [hsr]
    simp only [pad4, pad2, List.cons_append, List.nil_append]
    have hcon : ([dc (y / 1000), dc (y / 100 % 10), dc (y / 10 % 10), dc (y % 10), sep1,
        dc (m / 10), dc (m % 10), sep2, dc (d / 10), dc (d % 10)].contains '월') = false := by
      simp [List.contains_cons, wol_ne_dc ey1, wol_ne_dc ey2, wol_ne_dc ey3, wol_ne_dc ey4,
        wol_ne_dc em1, wol_ne_dc em2, wol_ne_dc ed1, wol_ne_dc ed2, hw1, hw2]
    have hmap : List.map (fun c => if c = '.' then '-' else c)
        [dc (y / 1000), dc (y / 100 % 10), dc (y / 10 % 10), dc (y % 10), sep1,
          dc (m / 10), dc (m % 10), sep2, dc (d / 10), dc (d % 10)] =
        [dc (y / 1000), dc (y / 100 % 10), dc (y / 10 % 10), dc (y % 10), '-',
          dc (m / 10), dc (m % 10), '-', dc (d / 10), dc (d % 10)] := by
      simp [dc_ne_dot ey1, dc_ne_dot ey2, dc_ne_dot ey3, dc_ne_dot ey4,
        dc_ne_dot em1, dc_ne_dot em2, dc_ne_dot ed1, dc_ne_dot ed2, hr1, hr2]
    simp only [hcon, Bool.false_eq_true, if_false, List.length_cons, List.length_nil,
      Nat.reduceAdd, hmap]
    have h := strptimeYMD_pads y m d hy1 hy2 hm1 hm2 hd1 hd2
    simp only [pad4, pad2, List.cons_append, List.nil_append] at h
    simpa using h
  · intro s y m d hsr hy hm hd
    have ey1 : y / 1000 ≤ 9 := by omega
    have ey2 : y / 100 % 10 ≤ 9 := by omega
    have ey3 : y / 10 % 10 ≤ 9 := by omega
    have ey4 : y % 10 ≤ 9 := by omega
    have em1 : m / 10 ≤ 9 := by omega
    have em2 : m % 10 ≤ 9 := by omega
    have ed1 : d / 10 ≤ 9 := by omega
    have ed2 : d % 10 ≤ 9 := by omega
    unfold extract_date_from_filename
    rw [hsr]
    simp only [pad4, pad2, List.cons_append, List.nil_append]
    have hcon : ([dc (y / 1000), dc (y / 100 % 10), dc (y / 10 % 10), dc (y % 10),
        dc (m / 10), dc (m % 10), dc (d / 10), dc (d % 10)].contains '월') = false := by
      simp [List.contains_cons, wol_ne_dc ey1, wol_ne_dc ey2, wol_ne_dc ey3, wol_ne_dc ey4,
        wol_ne_dc em1, wol_ne_dc em2, wol_ne_dc ed1, wol_ne_dc ed2]
    have hmap : List.map (fun c => if c = '.' then '-' else c)
        [dc (y / 1000), dc (y / 100 % 10), dc (y / 10 % 10), dc (y % 10),
          dc (m / 10), dc (m % 10), dc (d / 10), dc (d % 10)] =
        [dc (y / 1000), dc (y / 100 % 10), dc (y / 10 % 10), dc (y % 10),
          dc (m / 10), dc (m % 10), dc (d / 10), dc (d % 10)] := by
      simp [dc_ne_dot ey1, dc_ne_dot ey2, dc_ne_dot ey3, dc_ne_dot ey4,
        dc_ne_dot em1, dc_ne_dot em2, dc_ne_dot ed1, dc_ne_dot ed2]
    simp only [hcon, Bool.false_eq_true, if_false, List.length_cons, List.length_nil,
      Nat.reduceAdd, hmap]
    rw [if_neg (by simp)]
    rw [strptimeYMD_cons]
    rw [if_neg (by simp [dc_ne_dash em1])]

/-- Witness for c2_literal_year_amended: "x2023-04-05.txt" parses to
the literal date 2023-04-05, while "20240509.txt" yields none. -/
theorem c2_literal_year_amended_witness :
    dateSearchRaw ("x2023-04-05.txt".data) =
        some (pad4 2023 ++ '-' :: (pad2 4 ++ '-' :: pad2 5)) ∧
    dateSearchRaw ("20240509.txt".data) = some (pad4 2024 ++ (pad2 5 ++ pad2 9)) ∧
    extract_date_from_filename ("x2023-04-05.txt".data) = some ⟨2023, 4, 5⟩ ∧
    extract_date_from_filename ("20240509.txt".data) = none := by
  refine ⟨by decide, by decide, ?_, ?_⟩
  · exact c2_literal_year_amended.1 ("x2023-04-05.txt".data) 2023 4 5 '-' '-'
      (by decide) (Or.inl rfl) (Or.inl rfl) (by decide) (by decide) (by decide) (by decide)
      (by decide) (by decide)
  · exact c2_literal_year_amended.2 ("20240509.txt".data) 2024 5 9
      (by decide) (by decide) (by decide) (by decide)

/-- Unfolding one step of the max-by-length fold. -/
theorem pickMaxLen_cons (k x : List Char) (xs : List (List Char)) :
    pickMaxLen k (x :: xs) = pickMaxLen (if k.length < x.length then x else k) xs := rfl

/-- max(l, key=len) returns an element of l of maximal length, and it
is the first of the elements of maximal length: everything before it in
l is strictly shorter. -/
theorem pickMaxLen_decomp (k : List Char) (ks : List (List Char)) :
    ∃ pre post, k :: ks = pre ++ pickMaxLen k ks :: post ∧
      (∀ p ∈ pre, p.length < (pickMaxLen k ks).length) ∧
      (∀ p ∈ k :: ks, p.length ≤ (pickMaxLen k ks).length) := by
  induction ks generalizing k with
  | nil =>
      refine ⟨[], [], by simp [pickMaxLen], by simp, ?_⟩
      intro p hp
      have : p = k := by simpa using hp
      simp [this, pickMaxLen]
  | cons x xs ih =>
      rw [pickMaxLen_cons]
      by_cases h : k.length < x.length
      · rw [if_pos h]
        obtain ⟨pre, post, hdec, hlt, hle⟩ := ih x
        have hxle : x.length ≤ (pickMaxLen x xs).length := hle x (List.mem_cons_self x xs)
        refine ⟨k :: pre, post, ?_, ?_, ?_⟩
        · rw [List.cons_append, ← hdec]
        · intro p hp
          rcases List.mem_cons.mp hp with rfl | hp'
          · omega
          · exact hlt p hp'
        · intro p hp
          rcases List.mem_cons.mp hp with rfl | hp'
          · omega
          · exact hle p hp'
      · rw [if_neg h]
        obtain ⟨pre, post, hdec, hlt, hle⟩ := ih k
        have hkle : k.length ≤ (pickMaxLen k xs).length := hle k (List.mem_cons_self k xs)
        cases pre with
        | nil =>
            simp only [List.nil_append] at hdec
            have hk : pickMaxLen k xs = k := ((List.cons.injEq _ _ _ _).mp hdec).1.symm
            refine ⟨[], x :: xs, by simp [hk], by simp, ?_⟩
            intro p hp
            rcases List.mem_cons.mp hp with rfl | hp'
            · simp [hk]
            · rcases List.mem_cons.mp hp' with rfl | hp''
              · rw [hk]; omega
              · exact hle p (List.mem_cons.mpr (Or.inr hp''))
        | cons q pre' =>
            rw [List.cons_append] at hdec
            have hq : q = k := ((List.cons.injEq _ _ _ _).mp hdec).1.symm
            have hxs : xs = pre' ++ pickMaxLen k xs :: post :=
              ((List.cons.injEq _ _ _ _).mp hdec).2
            have hklt : k.length < (pickMaxLen k xs).length := by
              have := hlt q (List.mem_cons_self q pre')
              rwa [hq] at this
            refine ⟨k :: x :: pre', post, ?_, ?_, ?_⟩
            · rw [List.cons_append, List.cons_append, ← hxs]
            · intro p hp
              rcases List.mem_cons.mp hp with rfl | hp'
              · exact hklt
              · rcases List.mem_cons.mp hp' with rfl | hp''
                · omega
                · exact hlt p (List.mem_cons.mpr (Or.inr hp''))
            · intro p hp
              rcases List.mem_cons.mp hp with rfl | hp'
              · omega
              · rcases List.mem_cons.mp hp' with rfl | hp''
                · omega
                · exact hle p (List.mem_cons.mpr (Or.inr hp''))

/-- C1: whenever the surviving tokens of a RawName (after splitting
on whitespace or slash, dropping empties, and removing group labels and
blacklisted words) include a purely Korean token of length 2-3,
normalize_name_to_core returns a Korean-name candidate (so never an
ID-style or fallback result): its result is itself a Korean 2-3 token,
it is one of the Korean candidates, it has maximal length among them,
and it is the first-encountered candidate of that maximal length. -/
theorem c1_korean_priority (name : List Char)
    (h : ∃ p ∈ keptTokens name, isKoreanTok p = true) :
    isKoreanTok (normalize_name_to_core name) = true ∧
    normalize_name_to_core name ∈ koreanParts name ∧
    (∀ p ∈ koreanParts name, p.length ≤ (normalize_name_to_core name).length) ∧
    ∃ pre post, koreanParts name = pre ++ normalize_name_to_core name :: post ∧
      ∀ p ∈ pre, p.length < (normalize_name_to_core name).length := by
  obtain ⟨p0, hp0, hk0⟩ := h
  have hp0mem : p0 ∈ koreanParts name := by
    unfold koreanParts
    exact List.mem_filter.mpr ⟨hp0, hk0⟩
  cases hkp : koreanParts name with
  | nil => rw [hkp] at hp0mem; simp at hp0mem
  | cons k ks =>
      have hnorm : normalize_name_to_core name = pickMaxLen k ks := by
        unfold normalize_name_to_core
        rw [hkp]
      obtain ⟨pre, post, hdec, hlt, hle⟩ := pickMaxLen_decomp k ks
      have hmem : pickMaxLen k ks ∈ k :: ks := by
        rw [hdec]
        exact List.mem_append.mpr (Or.inr (List.mem_cons_self _ _))
      have hmemk : pickMaxLen k ks ∈ koreanParts name := by rw [hkp]; exact hmem
      refine ⟨?_, ?_, ?_, ?_⟩
      · rw [hnorm]
        have := List.mem_filter.mp (by unfold koreanParts at hmemk; exact hmemk)
        exact this.2
      · rw [hnorm]; exact hmem
      · intro p hp
        rw [hnorm]
        exact hle p hp
      · refine ⟨pre, post, ?_, ?_⟩
        · rw [hnorm]; exact hdec
        · intro p hp
          rw [hnorm]
          exact hlt p hp

/-- Witness for c1_korean_priority at the RawName "1조 홍길동". -/
theorem c1_korean_priority_witness :
    (∃ p ∈ keptTokens ("1조 홍길동".data), isKoreanTok p = true) ∧
    isKoreanTok (normalize_name_to_core ("1조 홍길동".data)) = true ∧
    normalize_name_to_core ("1조 홍길동".data) ∈ koreanParts ("1조 홍길동".data) := by
  refine ⟨by decide, ?_, ?_⟩
  · exact (c1_korean_priority ("1조 홍길동".data) (by decide)).1
  · exact (c1_korean_priority ("1조 홍길동".data) (by decide)).2.1

/-- The last element of a filtered list satisfies the predicate and
is the last element of the original list that does. -/
theorem filter_getLast_decomp (p : List Char → Bool) (l : List (List Char)) (t : List Char)
    (h : (l.filter p).getLast? = some t) :
    p t = true ∧ ∃ pre post, l = pre ++ t :: post ∧ ∀ q ∈ post, p q = false := by
  induction l using List.reverseRecOn with
  | nil => simp at h
  | append_singleton l' a ih =>
      rw [List.filter_append] at h
      by_cases hpa : p a = true
      · have hfa : List.filter p [a] = [a] := by simp [hpa]
        rw [hfa, List.getLast?_concat] at h
        have hta : t = a := by injection h with h'; exact h'.symm
        subst hta
        exact ⟨hpa, l', [], rfl, by simp⟩
      · have hfa : List.filter p [a] = [] := by
          simp [List.filter_eq_nil_iff, hpa]
        rw [hfa, List.append_nil] at h
        obtain ⟨hpt, pre, post, hdec, hpost⟩ := ih h
        refine ⟨hpt, pre, post ++ [a], by rw [hdec, List.append_assoc]; rfl, ?_⟩
        intro q hq
        rcases List.mem_append.mp hq with hq' | hq'
        · exact hpost q hq'
        · have : q = a := by simpa using hq'
          subst this
          simpa using hpa

/-- C4: when no purely-Korean 2-3 token survives the filters,
normalize_name_to_core returns the last ID-style token (length at
least 4, Korean/Latin/digit/underscore only) in original order when one
exists, and otherwise the surviving tokens sorted lexicographically and
joined by single spaces, which is the empty string when no token
survives. -/
theorem c4_id_style_and_fallback (name : List Char)
    (h : ∀ p ∈ keptTokens name, isKoreanTok p = false) :
    (∀ t, (idParts name).getLast? = some t →
        normalize_name_to_core name = t ∧ isIdTok t = true ∧
        ∃ pre post, keptTokens name = pre ++ t :: post ∧ ∀ q ∈ post, isIdTok q = false) ∧
    (idParts name = [] →
        normalize_name_to_core name =
          List.intercalate [' '] (sortL lexLe (keptTokens name))) ∧
    (keptTokens name = [] → normalize_name_to_core name = []) := by
  have hkor : koreanParts name = [] := by
    unfold koreanParts
    rw [List.filter_eq_nil_iff]
    intro a ha
    simp [h a ha]
  have hnorm : normalize_name_to_core name =
      (match (idParts name).getLast? with
       | some t => t
       | none => List.intercalate [' '] (sortL lexLe (keptTokens name))) := by
    unfold normalize_name_to_core
    rw [hkor]
  refine ⟨?_, ?_, ?_⟩
  · intro t ht
    have hdec := filter_getLast_decomp isIdTok (keptTokens name) t
      (by unfold idParts at ht; exact ht)
    refine ⟨by rw [hnorm, ht], hdec.1, hdec.2⟩
  · intro hid
    rw [hnorm, hid]
    rfl
  · intro hkept
    have hid : idParts name = [] := by unfold idParts; rw [hkept]; rfl
    rw [hnorm, hid, hkept]
    simp [sortL, List.intercalate]

/-- Witness for c4_id_style_and_fallback at the RawName "abcd_1 xy". -/
theorem c4_id_style_and_fallback_witness :
    (∀ p ∈ keptTokens ("abcd_1 xy".data), isKoreanTok p = false) ∧
    (idParts ("abcd_1 xy".data)).getLast? = some ("abcd_1".data) ∧
    normalize_name_to_core ("abcd_1 xy".data) = "abcd_1".data := by
  refine ⟨by decide, by decide, ?_⟩
  exact ((c4_id_style_and_fallback ("abcd_1 xy".data) (by decide)).1
    ("abcd_1".data) (by decide)).1

theorem insertSorted_perm (le : α → α → Bool) (a : α) (l : List α) :
    (insertSorted le a l).Perm (a :: l) := by
  induction l with
  | nil => exact List.Perm.refl _
  | cons b r ih =>
      unfold insertSorted
      by_cases h : le b a && !le a b
      · rw [if_pos h]
        exact (ih.cons b).trans (List.Perm.swap a b r)
      · rw [if_neg h]

theorem sortL_perm (le : α → α → Bool) (l : List α) : (sortL le l).Perm l := by
  induction l with
  | nil => exact List.Perm.refl _
  | cons a r ih =>
      unfold sortL
      exact (insertSorted_perm le a (sortL le r)).trans (ih.cons a)

theorem insertSorted_pairwise (le : α → α → Bool)
    (htot : ∀ x y, le x y = true ∨ le y x = true)
    (htrans : ∀ x y z, le x y = true → le y z = true → le x z = true)
    (a : α) (l : List α) (hl : l.Pairwise (fun x y => le x y = true)) :
    (insertSorted le a l).Pairwise (fun x y => le x y = true) := by
  induction l with
  | nil => unfold insertSorted; simp
  | cons b r ih =>
      rw [List.pairwise_cons] at hl
      obtain ⟨hb, hr⟩ := hl
      unfold insertSorted
      by_cases h : le b a && !le a b
      · rw [if_pos h]
        rw [List.pairwise_cons]
        refine ⟨?_, ih hr⟩
        intro y hy
        have hy' : y ∈ a :: r := (insertSorted_perm le a r).mem_iff.mp hy
        rcases List.mem_cons.mp hy' with rfl | hy''
        · exact (Bool.and_eq_true_iff.mp h).1
        · exact hb y hy''
      · rw [if_neg h]
        have ha : le a b = true := by
          cases hab : le a b with
          | true => rfl
          | false =>
              rcases htot a b with h' | h'
              · exact absurd h' (by simp [hab])
              · exact absurd (by rw [h', hab]; rfl) h
        rw [List.pairwise_cons]
        refine ⟨?_, List.pairwise_cons.mpr ⟨hb, hr⟩⟩
        intro y hy
        rcases List.mem_cons.mp hy with rfl | hy'
        · exact ha
        · exact htrans a b y ha (hb y hy')

theorem sortL_pairwise (le : α → α → Bool)
    (htot : ∀ x y, le x y = true ∨ le y x = true)
    (htrans : ∀ x y z, le x y = true → le y z = true → le x z = true)
    (l : List α) : (sortL le l).Pairwise (fun x y => le x y = true) := by
  induction l with
  | nil => exact List.Pairwise.nil
  | cons a r ih =>
      unfold sortL
      exact insertSorted_pairwise le htot htrans a (sortL le r) ih

theorem dateLe_total (a b : PDate) : dateLe a b = true ∨ dateLe b a = true := by
  simp [dateLe]
  omega

theorem dateLe_trans (a b c : PDate) (h1 : dateLe a b = true) (h2 : dateLe b c = true) :
    dateLe a c = true := by
  simp [dateLe] at h1 h2 ⊢
  omega

theorem dateLe_ne_lt (a b : PDate) (h1 : dateLe a b = true) (h2 : a ≠ b) :
    dateLt a b = true := by
  obtain ⟨ay, am, ad⟩ := a
  obtain ⟨by', bm, bd⟩ := b
  simp [dateLe, dateLt, PDate.mk.injEq] at h1 h2 ⊢
  omega

theorem lookupD_setD (ds : List (PDate × Char)) (d : PDate) (c : Char) (d' : PDate) :
    lookupD (setD ds d c) d' = if d' = d then some c else lookupD ds d' := by
  induction ds with
  | nil =>
      by_cases h : d' = d
      · subst h; simp [setD, lookupD]
      · simp [setD, lookupD, h, Ne.symm h]
  | cons ev r ih =>
      obtain ⟨e, v⟩ := ev
      by_cases hed : e = d
      · subst hed
        by_cases h : d' = e
        · subst h; simp [setD, lookupD]
        · simp [setD, lookupD, h, Ne.symm h]
      · by_cases h : e = d'
        · subst h
          simp [setD, lookupD, hed, Ne.symm hed]
        · simp [setD, lookupD, hed, h, ih]

theorem setD_fst_eq (ds : List (PDate × Char)) (d : PDate) (c : Char) :
    (setD ds d c).map Prod.fst =
      if d ∈ ds.map Prod.fst then ds.map Prod.fst else ds.map Prod.fst ++ [d] := by
  induction ds with
  | nil => simp [setD]
  | cons ev r ih =>
      obtain ⟨e, v⟩ := ev
      by_cases hed : e = d
      · subst hed
        simp [setD]
      · by_cases hmem : d ∈ r.map Prod.fst
        · simp [setD, hed, Ne.symm hed, hmem, ih]
        · simp [setD, hed, Ne.symm hed, hmem, ih]

theorem setD_fst_nodup (ds : List (PDate × Char)) (d : PDate) (c : Char)
    (h : (ds.map Prod.fst).Nodup) : ((setD ds d c).map Prod.fst).Nodup := by
  rw [setD_fst_eq]
  by_cases hmem : d ∈ ds.map Prod.fst
  · simp [hmem, h]
  · simp [hmem, List.nodup_append, h]

theorem setD_snd_mem (ds : List (PDate × Char)) (d : PDate) (c : Char) :
    ∀ p ∈ setD ds d c, p.2 = c ∨ p ∈ ds := by
  induction ds with
  | nil => intro p hp; simp [setD] at hp; simp [hp]
  | cons ev r ih =>
      obtain ⟨e, v⟩ := ev
      intro p hp
      by_cases hed : e = d
      · subst hed
        simp only [setD, if_pos rfl] at hp
        rcases List.mem_cons.mp hp with rfl | hp'
        · simp
        · simp [hp']
      · simp only [setD, if_neg hed] at hp
        rcases List.mem_cons.mp hp with rfl | hp'
        · simp
        · rcases ih p hp' with h' | h'
          · simp [h']
          · simp [h']

theorem setD_fst_sub (ds : List (PDate × Char)) (d : PDate) (c : Char) :
    ∀ x ∈ (setD ds d c).map Prod.fst, x ∈ ds.map Prod.fst ∨ x = d := by
  intro x hx
  rw [setD_fst_eq] at hx
  by_cases hmem : d ∈ ds.map Prod.fst
  · rw [if_pos hmem] at hx; exact Or.inl hx
  · rw [if_neg hmem] at hx
    rcases List.mem_append.mp hx with h' | h'
    · exact Or.inl h'
    · right; simpa using h'

theorem lookupName_setName (ps : List (List Char × List (PDate × Char))) (n : List Char)
    (d : PDate) (n' : List Char) :
    lookupName (setName ps n d) n' =
      if n' = n then
        some (match lookupName ps n with
              | some ds => setD ds d 'O'
              | none => [(d, 'O')])
      else lookupName ps n' := by
  induction ps with
  | nil =>
      by_cases h : n' = n
      · subst h; simp [setName, lookupName]
      · simp [setName, lookupName, h, Ne.symm h]
  | cons ev r ih =>
      obtain ⟨e, ds⟩ := ev
      by_cases hen : e = n
      · subst hen
        by_cases h : n' = e
        · subst h; simp [setName, lookupName]
        · simp [setName, lookupName, h, Ne.symm h]
      · by_cases h : e = n'
        · subst h
          simp [setName, lookupName, hen, Ne.symm hen]
        · simp [setName, lookupName, hen, h, ih]

theorem mem_setName (ps : List (List Char × List (PDate × Char))) (n : List Char) (d : PDate) :
    ∀ q ∈ setName ps n d,
      q ∈ ps ∨ (∃ ds₀, (q.1, ds₀) ∈ ps ∧ q.2 = setD ds₀ d 'O') ∨ q.2 = [(d, 'O')] := by
  induction ps with
  | nil =>
      intro q hq
      simp [setName] at hq
      simp [hq]
  | cons ev r ih =>
      obtain ⟨e, ds⟩ := ev
      intro q hq
      by_cases hen : e = n
      · subst hen
        simp only [setName, if_pos rfl] at hq
        rcases List.mem_cons.mp hq with rfl | hq'
        · exact Or.inr (Or.inl ⟨ds, List.mem_cons_self _ _, rfl⟩)
        · exact Or.inl (List.mem_cons.mpr (Or.inr hq'))
      · simp only [setName, if_neg hen] at hq
        rcases List.mem_cons.mp hq with rfl | hq'
        · exact Or.inl (List.mem_cons_self _ _)
        · rcases ih q hq' with h' | h' | h'
          · exact Or.inl (List.mem_cons.mpr (Or.inr h'))
          · obtain ⟨ds₀, hmem, heq⟩ := h'
            exact Or.inr (Or.inl ⟨ds₀, List.mem_cons.mpr (Or.inr hmem), heq⟩)
          · exact Or.inr (Or.inr h')

theorem lookup2_markPresent (st : AggState) (n : List Char) (d : PDate)
    (n' : List Char) (d' : PDate) :
    lookup2 (markPresent st n d) n' d' =
      if n' = n ∧ d' = d then some 'O' else lookup2 st n' d' := by
  unfold lookup2 markPresent
  simp only
  rw [lookupName_setName]
  by_cases hn : n' = n
  · subst hn
    rw [if_pos rfl]
    cases hl : lookupName st.participation n' with
    | some ds =>
        simp only [lookupD_setD]
        by_cases hd : d' = d
        · simp [hd]
        · simp [hd]
    | none =>
        by_cases hd : d' = d
        · subst hd; simp [lookupD]
        · simp [lookupD, hd, Ne.symm hd]
  · simp [hn]

theorem mem_insertDate (l : List PDate) (d x : PDate) :
    x ∈ insertDate l d ↔ x ∈ l ∨ x = d := by
  unfold insertDate
  by_cases h : d ∈ l
  · rw [if_pos h]
    constructor
    · exact Or.inl
    · rintro (hx | rfl)
      · exact hx
      · exact h
  · rw [if_neg h]
    simp

theorem insertDate_nodup (l : List PDate) (d : PDate) (h : l.Nodup) :
    (insertDate l d).Nodup := by
  unfold insertDate
  by_cases hm : d ∈ l
  · rw [if_pos hm]; exact h
  · rw [if_neg hm]
    simp [List.nodup_append, h, hm]

theorem markFoldl_all_dates (ns : List (List Char)) (d : PDate) : ∀ st : AggState,
    (ns.foldl (fun s n => markPresent s (normalize_name_to_core n) d) st).all_dates =
      st.all_dates := by
  induction ns with
  | nil => intro st; rfl
  | cons n₀ ns ih => intro st; rw [List.foldl_cons, ih]; rfl

theorem markFoldl_errors (ns : List (List Char)) (d : PDate) : ∀ st : AggState,
    (ns.foldl (fun s n => markPresent s (normalize_name_to_core n) d) st).errors =
      st.errors := by
  induction ns with
  | nil => intro st; rfl
  | cons n₀ ns ih => intro st; rw [List.foldl_cons, ih]; rfl

theorem markFoldl_participation_congr (ns : List (List Char)) (d : PDate) :
    ∀ st st' : AggState, st.participation = st'.participation →
      (ns.foldl (fun s n => markPresent s (normalize_name_to_core n) d) st).participation =
        (ns.foldl (fun s n => markPresent s (normalize_name_to_core n) d) st').participation := by
  induction ns with
  | nil => intro st st' h; exact h
  | cons n₀ ns ih =>
      intro st st' h
      rw [List.foldl_cons, List.foldl_cons]
      apply ih
      unfold markPresent
      simp only [h]

theorem StInv_markPresent (st : AggState) (n : List Char) (d : PDate)
    (hd : d ∈ st.all_dates) (h : StInv st) : StInv (markPresent st n d) := by
  obtain ⟨hpart, hdates⟩ := h
  refine ⟨?_, hdates⟩
  intro n₁ ds₁ hmem
  rcases mem_setName st.participation n d (n₁, ds₁) hmem with hin | ⟨ds₀, hmem₀, heq⟩ | heq
  · exact hpart n₁ ds₁ hin
  · have hbase := hpart n₁ ds₀ hmem₀
    constructor
    · intro d₂ c₂ hdc
      simp only at heq
      rw [heq] at hdc
      have hkey : d₂ ∈ st.all_dates := by
        have hmap : d₂ ∈ (setD ds₀ d 'O').map Prod.fst :=
          List.mem_map_of_mem Prod.fst hdc
        rcases setD_fst_sub ds₀ d 'O' d₂ hmap with hk | rfl
        · obtain ⟨⟨dd, cc⟩, hin'', heq''⟩ := List.mem_map.mp hk
          simp only at heq''
          subst heq''
          exact (hbase.1 _ cc hin'').2
        · exact hd
      rcases setD_snd_mem ds₀ d 'O' (d₂, c₂) hdc with hc | hin'
      · exact ⟨hc, hkey⟩
      · exact ⟨(hbase.1 d₂ c₂ hin').1, hkey⟩
    · simp only at heq
      rw [heq]
      exact setD_fst_nodup ds₀ d 'O' hbase.2
  · simp only at heq
    constructor
    · intro d₂ c₂ hdc
      rw [heq] at hdc
      simp at hdc
      obtain ⟨rfl, rfl⟩ := hdc
      exact ⟨rfl, hd⟩
    · rw [heq]; simp

theorem StInv_markFoldl (ns : List (List Char)) (d : PDate) :
    ∀ st : AggState, d ∈ st.all_dates → StInv st →
      StInv (ns.foldl (fun s n => markPresent s (normalize_name_to_core n) d) st) := by
  induction ns with
  | nil => intro st _ h; exact h
  | cons n₀ ns ih =>
      intro st hd h
      rw [List.foldl_cons]
      exact ih _ hd (StInv_markPresent st _ d hd h)

theorem StInv_insert (st : AggState) (date : PDate) (h : StInv st) :
    StInv { st with all_dates := insertDate st.all_dates date } := by
  obtain ⟨hpart, hdates⟩ := h
  constructor
  · intro n₁ ds₁ hmem
    have hbase := hpart n₁ ds₁ hmem
    refine ⟨?_, hbase.2⟩
    intro d₂ c₂ hdc
    have := hbase.1 d₂ c₂ hdc
    exact ⟨this.1, (mem_insertDate _ _ _).mpr (Or.inl this.2)⟩
  · exact insertDate_nodup _ _ hdates

theorem StInv_step (st : AggState) (f : PFile) (h : StInv st) : StInv (step st f) := by
  unfold step
  cases hd : extract_date_from_filename f.name with
  | none => exact h
  | some date =>
      apply StInv_markFoldl
      · exact (mem_insertDate _ _ _).mpr (Or.inr rfl)
      · exact StInv_insert st date h

theorem StInv_foldl (fs : List PFile) : ∀ st : AggState, StInv st →
    StInv (List.foldl step st fs) := by
  induction fs with
  | nil => intro st h; exact h
  | cons f fs ih =>
      intro st h
      rw [List.foldl_cons]
      exact ih _ (StInv_step st f h)

theorem StInv_processFiles (files : List PFile) : StInv (processFiles files) := by
  apply StInv_foldl
  constructor
  · intro n ds h
    simp at h
  · simp

theorem setD_setD (ds : List (PDate × Char)) (d : PDate) (c : Char) :
    setD (setD ds d c) d c = setD ds d c := by
  induction ds with
  | nil => simp [setD]
  | cons ev r ih =>
      obtain ⟨e, v⟩ := ev
      by_cases hed : e = d
      · subst hed
        simp [setD]
      · simp [setD, hed, ih]

theorem setName_setName (ps : List (List Char × List (PDate × Char))) (n : List Char)
    (d : PDate) : setName (setName ps n d) n d = setName ps n d := by
  induction ps with
  | nil => simp [setName, setD]
  | cons ev r ih =>
      obtain ⟨e, ds⟩ := ev
      by_cases hen : e = n
      · subst hen
        simp [setName, setD_setD]
      · simp [setName, hen, ih]

theorem marked_mono_markPresent (st : AggState) (n : List Char) (d : PDate)
    (n' : List Char) (d' : PDate) (h : lookup2 st n d = some 'O') :
    lookup2 (markPresent st n' d') n d = some 'O' := by
  rw [lookup2_markPresent]
  split
  · rfl
  · exact h

theorem marked_mono_markFoldl (ns : List (List Char)) (d' : PDate) :
    ∀ st n d, lookup2 st n d = some 'O' →
      lookup2 (ns.foldl (fun s nm => markPresent s (normalize_name_to_core nm) d') st) n d =
        some 'O' := by
  induction ns with
  | nil => intro st n d h; exact h
  | cons n₀ ns ih =>
      intro st n d h
      rw [List.foldl_cons]
      exact ih _ n d (marked_mono_markPresent st n d _ d' h)

theorem marked_mono_step (st : AggState) (f : PFile) (n : List Char) (d : PDate)
    (h : lookup2 st n d = some 'O') : lookup2 (step st f) n d = some 'O' := by
  unfold step
  cases hd : extract_date_from_filename f.name with
  | none => exact h
  | some date => exact marked_mono_markFoldl _ date _ n d h

theorem marked_mono_foldl (fs : List PFile) : ∀ (st : AggState) n d,
    lookup2 st n d = some 'O' → lookup2 (List.foldl step st fs) n d = some 'O' := by
  induction fs with
  | nil => intro st n d h; exact h
  | cons f fs ih =>
      intro st n d h
      rw [List.foldl_cons]
      exact ih _ n d (marked_mono_step st f n d h)

theorem step_none (st : AggState) (f : PFile)
    (h : extract_date_from_filename f.name = none) :
    step st f = { st with errors := st.errors ++ [f.name] } := by
  unfold step
  rw [h]

theorem step_congr_pa (st st' : AggState) (f : PFile)
    (h1 : st.participation = st'.participation) (h2 : st.all_dates = st'.all_dates) :
    (step st f).participation = (step st' f).participation ∧
      (step st f).all_dates = (step st' f).all_dates := by
  unfold step
  cases hd : extract_date_from_filename f.name with
  | none => exact ⟨h1, h2⟩
  | some date =>
      constructor
      · exact markFoldl_participation_congr _ date _ _ h1
      · rw [markFoldl_all_dates, markFoldl_all_dates]
        simp only [h2]

theorem foldl_step_congr_pa (fs : List PFile) : ∀ st st' : AggState,
    st.participation = st'.participation → st.all_dates = st'.all_dates →
    (List.foldl step st fs).participation = (List.foldl step st' fs).participation ∧
      (List.foldl step st fs).all_dates = (List.foldl step st' fs).all_dates := by
  induction fs with
  | nil => intro st st' h1 h2; exact ⟨h1, h2⟩
  | cons f fs ih =>
      intro st st' h1 h2
      rw [List.foldl_cons, List.foldl_cons]
      obtain ⟨hp, ha⟩ := step_congr_pa st st' f h1 h2
      exact ih _ _ hp ha

theorem errors_mono_step (st : AggState) (f : PFile) (x : List Char)
    (h : x ∈ st.errors) : x ∈ (step st f).errors := by
  unfold step
  cases hd : extract_date_from_filename f.name with
  | none => exact List.mem_append.mpr (Or.inl h)
  | some date => rw [markFoldl_errors]; exact h

theorem errors_mono_foldl (fs : List PFile) : ∀ (st : AggState) x,
    x ∈ st.errors → x ∈ (List.foldl step st fs).errors := by
  induction fs with
  | nil => intro st x h; exact h
  | cons f fs ih =>
      intro st x h
      rw [List.foldl_cons]
      exact ih _ x (errors_mono_step st f x h)

/-- C9: marking attendance is idempotent per (name, date) — marking the
same pair twice leaves the state unchanged — and once a (name, date)
pair carries the marker 'O' it still carries 'O' after any further
files of the run are processed. -/
theorem c9_mark_idempotent_monotone :
    (∀ st n d, markPresent (markPresent st n d) n d = markPresent st n d) ∧
    (∀ st n d files, lookup2 st n d = some 'O' →
        lookup2 (List.foldl step st files) n d = some 'O') := by
  constructor
  · intro st n d
    unfold markPresent
    simp [setName_setName]
  · intro st n d files h
    exact marked_mono_foldl files st n d h

/-- Witness for c9_mark_idempotent_monotone on a concrete state, name,
date and a later file. -/
theorem c9_mark_idempotent_monotone_witness :
    lookup2 (markPresent ⟨[], [], []⟩ ("김철수".data) ⟨2024, 5, 9⟩)
        ("김철수".data) ⟨2024, 5, 9⟩ = some 'O' ∧
    markPresent (markPresent ⟨[], [], []⟩ ("김철수".data) ⟨2024, 5, 9⟩)
        ("김철수".data) ⟨2024, 5, 9⟩ =
      markPresent ⟨[], [], []⟩ ("김철수".data) ⟨2024, 5, 9⟩ ∧
    lookup2 (List.foldl step (markPresent ⟨[], [], []⟩ ("김철수".data) ⟨2024, 5, 9⟩)
        [⟨"0510.txt".data, "1) 박영희".data⟩]) ("김철수".data) ⟨2024, 5, 9⟩ = some 'O' := by
  refine ⟨by decide, ?_, ?_⟩
  · exact c9_mark_idempotent_monotone.1 ⟨[], [], []⟩ ("김철수".data) ⟨2024, 5, 9⟩
  · exact c9_mark_idempotent_monotone.2 (markPresent ⟨[], [], []⟩ ("김철수".data) ⟨2024, 5, 9⟩)
      ("김철수".data) ⟨2024, 5, 9⟩ [⟨"0510.txt".data, "1) 박영희".data⟩] (by decide)

/-- C8: extract_date_from_filename returns none when the combined date
pattern finds no match (first conjunct; it is a total function, so it
never raises), and a file whose filename yields no date is excluded
entirely from aggregation: the participation record and the date set
are the same as if the file had not been uploaded, while its name is
reported in the error list and the remaining files are still
processed. -/
theorem c8_date_failure_skips_file :
    (∀ s, dateSearchRaw s = none → extract_date_from_filename s = none) ∧
    (∀ pre post f, extract_date_from_filename f.name = none →
      (processFiles (pre ++ f :: post)).participation =
          (processFiles (pre ++ post)).participation ∧
        (processFiles (pre ++ f :: post)).all_dates =
          (processFiles (pre ++ post)).all_dates ∧
        f.name ∈ (processFiles (pre ++ f :: post)).errors) := by
  constructor
  · intro s h
    unfold extract_date_from_filename
    rw [h]
  · intro pre post f h
    have hsplit : processFiles (pre ++ f :: post) =
        List.foldl step (step (processFiles pre) f) post := by
      unfold processFiles
      rw [List.foldl_append, List.foldl_cons]
    have hsplit' : processFiles (pre ++ post) =
        List.foldl step (processFiles pre) post := by
      unfold processFiles
      rw [List.foldl_append]
    rw [hsplit, hsplit', step_none _ _ h]
    obtain ⟨hp, ha⟩ := foldl_step_congr_pa post
      { processFiles pre with errors := (processFiles pre).errors ++ [f.name] }
      (processFiles pre) rfl rfl
    refine ⟨hp, ha, ?_⟩
    apply errors_mono_foldl
    exact List.mem_append.mpr (Or.inr (List.mem_singleton.mpr rfl))

/-- Witness for c8_date_failure_skips_file: a dateless filename and a
file whose 4-digit code 1332 is a semantically invalid date (month
13); the latter is skipped while the other file is still aggregated. -/
theorem c8_date_failure_skips_file_witness :
    dateSearchRaw ("nodate.txt".data) = none ∧
    extract_date_from_filename ("nodate.txt".data) = none ∧
    extract_date_from_filename ("1332.txt".data) = none ∧
    (processFiles ([] ++ (⟨"1332.txt".data, "1) 홍길동".data⟩ : PFile) ::
        [⟨"0509.txt".data, "1) 김철수".data⟩])).participation =
      (processFiles ([] ++ [⟨"0509.txt".data, "1) 김철수".data⟩])).participation ∧
    "1332.txt".data ∈ (processFiles ([] ++ (⟨"1332.txt".data, "1) 홍길동".data⟩ : PFile) ::
        [⟨"0509.txt".data, "1) 김철수".data⟩])).errors := by
  refine ⟨by decide, ?_, by decide, ?_, ?_⟩
  · exact c8_date_failure_skips_file.1 ("nodate.txt".data) (by decide)
  · exact (c8_date_failure_skips_file.2 [] [⟨"0509.txt".data, "1) 김철수".data⟩]
      ⟨"1332.txt".data, "1) 홍길동".data⟩ (by decide)).1
  · exact (c8_date_failure_skips_file.2 [] [⟨"0509.txt".data, "1) 김철수".data⟩]
      ⟨"1332.txt".data, "1) 홍길동".data⟩ (by decide)).2.2

theorem lookupD_eq_keys (ds : List (PDate × Char)) (hvals : ∀ p ∈ ds, p.2 = 'O')
    (d : PDate) :
    ((lookupD ds d).getD 'X' == 'O') = decide (d ∈ ds.map Prod.fst) := by
  induction ds with
  | nil => simp [lookupD]
  | cons ev r ih =>
      obtain ⟨e, v⟩ := ev
      have hv : v = 'O' := hvals (e, v) (List.mem_cons_self _ _)
      by_cases hed : e = d
      · subst hed
        simp [lookupD, hv]
      · have ihr := ih (fun p hp => hvals p (List.mem_cons.mpr (Or.inr hp)))
        simp only [lookupD, if_neg hed, List.map_cons, List.mem_cons, ihr]
        have : ¬ (d = e) := fun hh => hed hh.symm
        simp [this]

theorem StInv_keys_sub (st : AggState) (h : StInv st) (n : List Char)
    (ds : List (PDate × Char)) (hmem : (n, ds) ∈ st.participation) :
    ∀ d ∈ ds.map Prod.fst, d ∈ st.all_dates := by
  intro d hd
  obtain ⟨⟨d₀, c₀⟩, hin, heq⟩ := List.mem_map.mp hd
  simp only at heq
  subst heq
  exact ((h.1 n ds hmem).1 d₀ c₀ hin).2

theorem count_cells (st : AggState) (ds : List (PDate × Char))
    (hvals : ∀ p ∈ ds, p.2 = 'O') (hkeys : ∀ d ∈ ds.map Prod.fst, d ∈ st.all_dates)
    (hnodupk : (ds.map Prod.fst).Nodup) (hnodupd : st.all_dates.Nodup) :
    ((sortedDates st).map (fun d => (lookupD ds d).getD 'X')).count 'O' = ds.length := by
  rw [List.count_eq_countP, List.countP_map]
  unfold sortedDates
  rw [(sortL_perm dateLe st.all_dates).countP_eq]
  rw [List.countP_congr (fun a _ => by
    show ((lookupD ds a).getD 'X' == 'O') = true ↔ decide (a ∈ ds.map Prod.fst) = true
    rw [lookupD_eq_keys ds hvals a])]
  rw [List.countP_eq_length_filter]
  have hperm : (st.all_dates.filter (fun d => decide (d ∈ ds.map Prod.fst))).Perm
      (ds.map Prod.fst) := by
    apply List.perm_of_nodup_nodup_toFinset_eq (hnodupd.filter _) hnodupk
    ext x
    simp only [List.mem_toFinset, List.mem_filter, decide_eq_true_eq]
    exact ⟨fun hx => hx.2, fun hx => ⟨hkeys x hx, hx⟩⟩
  rw [hperm.length_eq, List.length_map]

/-- C5: in every row of the produced report, the value of the total
column equals the number of 'O' cells of that row. -/
theorem c5_total_eq_O_cells (files : List PFile) :
    ∀ row ∈ buildRows (processFiles files), row.total = row.cells.count 'O' := by
  intro row hrow
  obtain ⟨⟨n, ds⟩, hmem, rfl⟩ := List.mem_map.mp hrow
  have hinv := StInv_processFiles files
  have hbase := hinv.1 n ds hmem
  have hvals : ∀ p ∈ ds, p.2 = 'O' := by
    intro p hp
    have := hbase.1 p.1 p.2 (by rw [Prod.mk.eta]; exact hp)
    exact this.1
  have htot : (ds.map Prod.snd).count 'O' = ds.length := by
    rw [List.count_eq_length.mpr ?_, List.length_map]
    intro b hb
    obtain ⟨p, hp, rfl⟩ := List.mem_map.mp hb
    exact (hvals p hp).symm
  show (ds.map Prod.snd).count 'O' =
    ((sortedDates (processFiles files)).map (fun d => (lookupD ds d).getD 'X')).count 'O'
  rw [htot, count_cells (processFiles files) ds hvals
    (StInv_keys_sub _ hinv n ds hmem) hbase.2 hinv.2]

/-- Witness for c5_total_eq_O_cells on a one-file batch with two
extracted names. -/
theorem c5_total_eq_O_cells_witness :
    (⟨"김철수".data, ['O'], 1⟩ : ReportRow) ∈
        buildRows (processFiles [⟨"0509.txt".data, "1) 김철수\n2) 박영희".data⟩]) ∧
    (⟨"김철수".data, ['O'], 1⟩ : ReportRow).total =
      (⟨"김철수".data, ['O'], 1⟩ : ReportRow).cells.count 'O' := by
  refine ⟨by decide, ?_⟩
  exact c5_total_eq_O_cells [⟨"0509.txt".data, "1) 김철수\n2) 박영희".data⟩]
    ⟨"김철수".data, ['O'], 1⟩ (by decide)

theorem all_dates_spec (fs : List PFile) : ∀ (st : AggState) (d : PDate),
    d ∈ (List.foldl step st fs).all_dates ↔
      d ∈ st.all_dates ∨ ∃ f ∈ fs, extract_date_from_filename f.name = some d := by
  induction fs with
  | nil => intro st d; simp
  | cons f fs ih =>
      intro st d
      rw [List.foldl_cons]
      cases hd : extract_date_from_filename f.name with
      | none =>
          rw [step_none st f hd, ih]
          constructor
          · rintro (h | ⟨f', hf', he⟩)
            · exact Or.inl h
            · exact Or.inr ⟨f', List.mem_cons.mpr (Or.inr hf'), he⟩
          · rintro (h | ⟨f', hf', he⟩)
            · exact Or.inl h
            · rcases List.mem_cons.mp hf' with rfl | hf''
              · rw [hd] at he
                exact absurd he (by simp)
              · exact Or.inr ⟨f', hf'', he⟩
      | some date =>
          rw [ih]
          have hstep : (step st f).all_dates = insertDate st.all_dates date := by
            unfold step
            rw [hd]
            exact markFoldl_all_dates _ _ _
          rw [hstep, mem_insertDate]
          constructor
          · rintro ((h | rfl) | ⟨f', hf', he⟩)
            · exact Or.inl h
            · exact Or.inr ⟨f, List.mem_cons_self _ _, hd⟩
            · exact Or.inr ⟨f', List.mem_cons.mpr (Or.inr hf'), he⟩
          · rintro (h | ⟨f', hf', he⟩)
            · exact Or.inl (Or.inl h)
            · rcases List.mem_cons.mp hf' with rfl | hf''
              · rw [hd] at he
                exact Or.inl (Or.inr (Option.some.inj he).symm)
              · exact Or.inr ⟨f', hf'', he⟩

theorem mem_processFiles_dates (files : List PFile) (d : PDate) :
    d ∈ (processFiles files).all_dates ↔
      ∃ f ∈ files, extract_date_from_filename f.name = some d := by
  unfold processFiles
  rw [all_dates_spec]
  simp

theorem marked_after_file (ns : List (List Char)) (d : PDate) :
    ∀ (st : AggState) nm, nm ∈ ns →
      lookup2 (ns.foldl (fun s n => markPresent s (normalize_name_to_core n) d) st)
        (normalize_name_to_core nm) d = some 'O' := by
  induction ns with
  | nil => intro st nm h; simp at h
  | cons n₀ ns ih =>
      intro st nm h
      rw [List.foldl_cons]
      rcases List.mem_cons.mp h with rfl | h'
      · apply marked_mono_markFoldl
        rw [lookup2_markPresent]
        simp
      · exact ih _ nm h'

theorem lookupName_some_mem (ps : List (List Char × List (PDate × Char))) (n : List Char) :
    ∀ ds, lookupName ps n = some ds → (n, ds) ∈ ps := by
  induction ps with
  | nil => intro ds h; simp [lookupName] at h
  | cons ev r ih =>
      obtain ⟨e, ds₀⟩ := ev
      intro ds h
      by_cases hen : e = n
      · subst hen
        simp [lookupName] at h
        exact List.mem_cons.mpr (Or.inl (by rw [h]))
      · simp [lookupName, hen] at h
        exact List.mem_cons.mpr (Or.inr (ih ds h))

theorem lookup2_some_mem (st : AggState) (n : List Char) (d : PDate) (c : Char)
    (h : lookup2 st n d = some c) : ∃ ds, (n, ds) ∈ st.participation := by
  unfold lookup2 at h
  cases hl : lookupName st.participation n with
  | none => rw [hl] at h; simp at h
  | some ds => exact ⟨ds, lookupName_some_mem _ _ ds hl⟩

/-- C6: the date columns of the report sit between the name column and
the total column and are exactly the distinct successfully parsed dates
of the uploaded files, in strictly ascending order — a date is a column
even when its file contributed no names — and every canonical name
extracted from a file with a parsed date appears as a row of the
report. -/
theorem c6_columns_are_parsed_dates (files : List PFile) :
    reportColumns (processFiles files) =
      "이름".data :: ((sortedDates (processFiles files)).map dateStr ++ ["총 횟수".data]) ∧
    (∀ d, d ∈ sortedDates (processFiles files) ↔
        ∃ f ∈ files, extract_date_from_filename f.name = some d) ∧
    (sortedDates (processFiles files)).Pairwise (fun a b => dateLt a b = true) ∧
    (∀ f ∈ files, ∀ d, extract_date_from_filename f.name = some d →
        ∀ nm ∈ extract_names_from_text f.content,
          ∃ row ∈ buildRows (processFiles files),
            row.name = normalize_name_to_core nm) := by
  refine ⟨rfl, ?_, ?_, ?_⟩
  · intro d
    unfold sortedDates
    rw [(sortL_perm dateLe _).mem_iff]
    exact mem_processFiles_dates files d
  · have hle := sortL_pairwise dateLe dateLe_total dateLe_trans (processFiles files).all_dates
    have hnodup : (sortL dateLe (processFiles files).all_dates).Nodup :=
      (sortL_perm dateLe _).nodup_iff.mpr (StInv_processFiles files).2
    have hne : (sortL dateLe (processFiles files).all_dates).Pairwise (fun a b => a ≠ b) :=
      hnodup
    exact (hle.and hne).imp (fun h => dateLe_ne_lt _ _ h.1 h.2)
  · intro f hf d hd nm hnm
    obtain ⟨l1, l2, rfl⟩ := List.append_of_mem hf
    have hmarked : lookup2 (processFiles (l1 ++ f :: l2))
        (normalize_name_to_core nm) d = some 'O' := by
      unfold processFiles
      rw [List.foldl_append, List.foldl_cons]
      apply marked_mono_foldl
      unfold step
      rw [hd]
      exact marked_after_file _ d _ nm hnm
    obtain ⟨ds, hmem⟩ := lookup2_some_mem _ _ _ _ hmarked
    exact ⟨_, List.mem_map_of_mem _ hmem, rfl⟩

/-- Witness for c6_columns_are_parsed_dates on a one-file batch. -/
theorem c6_columns_are_parsed_dates_witness :
    ((⟨2024, 5, 9⟩ : PDate) ∈
        sortedDates (processFiles [⟨"0509.txt".data, "1) 김철수".data⟩]) ↔
      ∃ f ∈ [(⟨"0509.txt".data, "1) 김철수".data⟩ : PFile)],
        extract_date_from_filename f.name = some ⟨2024, 5, 9⟩) :=
  (c6_columns_are_parsed_dates [⟨"0509.txt".data, "1) 김철수".data⟩]).2.1 ⟨2024, 5, 9⟩

/-- C10: after processing any prefix of the uploaded files the
aggregation state satisfies the invariant (every stored value is 'O',
every stored date key is a collected date, keys and dates are without
duplicates); consequently no row total exceeds the number of date
columns, and every date stored under a name appears among the report's
columns. -/
theorem c10_loop_invariant (files : List PFile) :
    (∀ k, StInv (processFiles (files.take k))) ∧
    (∀ row ∈ buildRows (processFiles files),
        row.total ≤ (sortedDates (processFiles files)).length) ∧
    (∀ n ds, (n, ds) ∈ (processFiles files).participation →
        ∀ d c, (d, c) ∈ ds →
          c = 'O' ∧ dateStr d ∈ reportColumns (processFiles files)) := by
  refine ⟨fun k => StInv_processFiles _, ?_, ?_⟩
  · intro row hrow
    obtain ⟨⟨n, ds⟩, hmem, rfl⟩ := List.mem_map.mp hrow
    have hinv := StInv_processFiles files
    have hbase := hinv.1 n ds hmem
    show (ds.map Prod.snd).count 'O' ≤ _
    have h1 : (ds.map Prod.snd).count 'O' ≤ ds.length := by
      calc (ds.map Prod.snd).count 'O' ≤ (ds.map Prod.snd).length :=
            List.count_le_length _ _
        _ = ds.length := List.length_map _ _
    have h2 : ds.length ≤ (processFiles files).all_dates.length := by
      have hkeys := StInv_keys_sub _ hinv n ds hmem
      have hcard : (ds.map Prod.fst).toFinset.card = ds.length := by
        rw [List.toFinset_card_of_nodup hbase.2, List.length_map]
      have hsub : (ds.map Prod.fst).toFinset ⊆ (processFiles files).all_dates.toFinset := by
        intro x hx
        rw [List.mem_toFinset] at hx ⊢
        exact hkeys x hx
      calc ds.length = (ds.map Prod.fst).toFinset.card := hcard.symm
        _ ≤ (processFiles files).all_dates.toFinset.card := Finset.card_le_card hsub
        _ ≤ (processFiles files).all_dates.length := List.toFinset_card_le _
    have h3 : (processFiles files).all_dates.length =
        (sortedDates (processFiles files)).length :=
      ((sortL_perm dateLe _).length_eq).symm
    omega
  · intro n ds hmem d c hdc
    have hinv := StInv_processFiles files
    have hbase := (hinv.1 n ds hmem).1 d c hdc
    refine ⟨hbase.1, ?_⟩
    unfold reportColumns
    refine List.mem_cons.mpr (Or.inr (List.mem_append.mpr (Or.inl ?_)))
    apply List.mem_map_of_mem
    unfold sortedDates
    rw [(sortL_perm dateLe _).mem_iff]
    exact hbase.2

/-- Witness for c10_loop_invariant on a one-file batch. -/
theorem c10_loop_invariant_witness :
    (⟨"김철수".data, ['O'], 1⟩ : ReportRow) ∈
        buildRows (processFiles [⟨"0509.txt".data, "1) 김철수".data⟩]) ∧
    (⟨"김철수".data, ['O'], 1⟩ : ReportRow).total ≤
      (sortedDates (processFiles [⟨"0509.txt".data, "1) 김철수".data⟩])).length := by
  refine ⟨by decide, ?_⟩
  exact (c10_loop_invariant [⟨"0509.txt".data, "1) 김철수".data⟩]).2.1
    ⟨"김철수".data, ['O'], 1⟩ (by decide)
